import Mathlib

/-!
Shallow embedding of `src/storage-proofs/src/circuit/private_drgporep.rs`:
the private DRG-PoRep circuit synthesizer and its compound-proof adapter
(public-input generation, witness marshaling, cache-prefix).  External
sub-circuits and utilities (private PoR, kdf, sloth decode, bit helpers)
are repository code that is not part of the given source tree; they are
modelled from the specification at their interface boundary, and each such
definition is marked `Modelled from the spec`.
-/

namespace DrgPoRep

set_option maxRecDepth 16000

/-- Field elements of the scalar field, represented abstractly as naturals.
Only bit decompositions, packings and known/unknown status of values are
relevant to the verified properties. -/
abbrev Fr := Nat

/-- `Fr::CAPACITY` of `pairing::bls12_381::Fr`: the number of bits that can
safely be packed into one field element.  The source uses this constant
(the BLS12-381 one, imported at the top of the file) even though
`synthesize` is generic in the engine. -/
def frCapacity : Nat := 254

/-- Modelled from the spec: the fixed little-endian bit-decomposition
convention shared by `fr_into_bytes`/`bytes_into_bits` on the generator
side and the boolean allocation helpers on the synthesizer side: bit `i`
of the decomposition is bit `i` of the value. -/
def frBits (v : Fr) (n : Nat) : List Bool :=
  (List.range n).map (fun i => Nat.testBit v i)

/-- Little-endian packing of a bit vector into a field element, as
`multipack::compute_multipacking` does within one chunk. -/
def packBitsLE : List Bool → Fr
  | [] => 0
  | b :: rest => (if b then 1 else 0) + 2 * packBitsLE rest

/-- Fuel-indexed chunking; `chunksOf` instantiates the fuel with the list
length, which suffices for every positive chunk size. -/
def chunksOfAux (n : Nat) : Nat → List α → List (List α)
  | _, [] => []
  | 0, _ :: _ => []
  | fuel + 1, x :: xs => ((x :: xs).take n) :: chunksOfAux n fuel ((x :: xs).drop n)

/-- Split a list into consecutive chunks of size `n` (the final chunk may
be shorter). -/
def chunksOf (n : Nat) (xs : List α) : List (List α) :=
  chunksOfAux n xs.length xs

/-- `multipack::compute_multipacking` (external, §6): pack a bit sequence
into field elements, `frCapacity` bits per element, little-endian within
each chunk. -/
def computeMultipacking (bits : List Bool) : List Fr :=
  (chunksOf frCapacity bits).map packBitsLE

/-- Sequence a list of optional values. -/
def seqOption : List (Option α) → Option (List α)
  | [] => some []
  | none :: _ => none
  | some x :: rest => (seqOption rest).map (fun l => x :: l)

/-- Value semantics of packing circuit booleans into public inputs: each
`frCapacity`-sized chunk becomes one public input, whose value is known
exactly when every bit of the chunk is known. -/
def multipackOption (bits : List (Option Bool)) : List (Option Fr) :=
  (chunksOf frCapacity bits).map (fun chunk => (seqOption chunk).map packBitsLE)

/-- Modelled from the spec: the Merkle-tree height (`graph_height`, not in
the source tree) for a tree with the given number of leaves, as used by the
private-PoR compound generator. -/
def treeHeightAux : Nat → Nat → Nat
  | 0, _ => 0
  | fuel + 1, n => if n ≤ 1 then 0 else treeHeightAux fuel (n / 2) + 1

/-- Tree height for a leaf count. -/
def treeHeight (leaves : Nat) : Nat := treeHeightAux leaves leaves

/-- Public inputs of the vanilla DRG-PoRep scheme
(`drgporep::PublicInputs`): replica id, challenged node indices, and an
optional commitment pair `tau`. -/
structure DrgPublicInputs where
  replica_id : Fr
  challenges : List Nat
  tau : Option (Fr × Fr)

/-- Public parameters of the vanilla scheme (`drgporep::PublicParams`):
`lambda`, `sloth_iter`, and the graph, exposed through its `size`,
`degree` and `parents` queries (§6 graph-topology interface). -/
structure DrgPublicParams where
  lambda : Nat
  sloth_iter : Nat
  graphSize : Nat
  graphDegree : Nat
  graphParents : Nat → List Nat

/-- Modelled from the spec: `PrivatePoRCompound::generate_public_inputs`
(`circuit/private_por.rs`, not in the source tree).  The private PoR
sub-circuit publishes only the packed direction bits of the challenged
leaf's authentication path — never the leaf value or the root. -/
def porGenPublicInputs (challenge : Nat) (leaves : Nat) : List Fr :=
  computeMultipacking (frBits challenge (treeHeight leaves))

/-- `generate_public_inputs` of the compound adapter (source lines
118–170).  The `assert!(pub_in.tau.is_none())` panic is modelled by
returning `none`. -/
def generate_public_inputs (pin : DrgPublicInputs) (pp : DrgPublicParams) :
    Option (List Fr) :=
  if pin.tau.isSome then none
  else
    let replica_id_bits := frBits pin.replica_id 256
    let packed_replica_id := computeMultipacking (replica_id_bits.take frCapacity)
    some ((pin.challenges.map (fun challenge =>
      packed_replica_id
      ++ ((challenge :: pp.graphParents challenge).map
            (fun node => porGenPublicInputs node pp.graphSize)).flatten
      ++ porGenPublicInputs challenge pp.graphSize)).flatten)

/-- Written from the spec's words (§4.3), for the refinement claim C6: one
per-challenge block is (a) the packed ReplicaIdentity contribution, then
(b) the challenged node's and then each graph parent's Merkle-membership
contribution, then (c) the data node's Merkle-membership contribution. -/
def specChallengeBlock (pin : DrgPublicInputs) (pp : DrgPublicParams) (c : Nat) : List Fr :=
  computeMultipacking ((frBits pin.replica_id 256).take frCapacity)
  ++ porGenPublicInputs c pp.graphSize
  ++ ((pp.graphParents c).map (fun p => porGenPublicInputs p pp.graphSize)).flatten
  ++ porGenPublicInputs c pp.graphSize

/-- Written from the spec's words: the whole public-input sequence is the
concatenation of the per-challenge blocks, in challenge order. -/
def specPublicInputs (pin : DrgPublicInputs) (pp : DrgPublicParams) : List Fr :=
  (pin.challenges.map (specChallengeBlock pin pp)).flatten

/-- A Merkle inclusion proof as the vanilla scheme delivers it: a
leaf-to-root path of (sibling value, is-right-child) pairs plus a root. -/
structure MerkleProof where
  path : List (Fr × Bool)
  root : Fr
deriving DecidableEq

/-- `MerkleProof::as_options`. -/
def MerkleProof.as_options (p : MerkleProof) : List (Option (Fr × Bool)) :=
  p.path.map some

/-- A proved node of the vanilla proof: its value plus its Merkle proof. -/
structure DataProof where
  data : Fr
  proof : MerkleProof
deriving DecidableEq

/-- The vanilla DRG-PoRep proof: per challenge a replica node, its parent
nodes (tagged with their node indices), and a data node. -/
structure DrgProof where
  replica_nodes : List DataProof
  replica_parents : List (List (Nat × DataProof))
  nodes : List DataProof
deriving DecidableEq

/-- The circuit witness (`PrivateDrgPoRepCircuit`, source lines 47–61).
The curve-parameter field carries no data relevant here and is omitted. -/
structure PrivateDrgPoRepCircuit where
  lambda : Nat
  sloth_iter : Nat
  replica_nodes : List (Option Fr)
  replica_nodes_paths : List (List (Option (Fr × Bool)))
  replica_root : Option Fr
  replica_parents : List (List (Option Fr))
  replica_parents_paths : List (List (List (Option (Fr × Bool))))
  data_nodes : List (Option Fr)
  data_nodes_paths : List (List (Option (Fr × Bool)))
  data_root : Option Fr
  replica_id : Option Fr
  degree : Nat
deriving DecidableEq

/-- `circuit` of the compound adapter (source lines 172–242).  The code
indexes `proof.replica_nodes[0]` and `proof.nodes[0]` unconditionally to
extract the two roots; those panics are modelled by returning `none`. -/
def circuit (public_inputs : DrgPublicInputs) (proof : DrgProof)
    (public_params : DrgPublicParams) : Option PrivateDrgPoRepCircuit :=
  match proof.replica_nodes.head?, proof.nodes.head? with
  | some rn0, some n0 =>
    some
      { lambda := public_params.lambda
        sloth_iter := public_params.sloth_iter
        replica_nodes := proof.replica_nodes.map (fun node => some node.data)
        replica_nodes_paths := proof.replica_nodes.map (fun node => node.proof.as_options)
        replica_root := some rn0.proof.root
        replica_parents :=
          proof.replica_parents.map (fun parents => parents.map (fun p => some p.2.data))
        replica_parents_paths :=
          proof.replica_parents.map (fun parents => parents.map (fun p => p.2.proof.as_options))
        data_nodes := proof.nodes.map (fun node => some node.data)
        data_nodes_paths := proof.nodes.map (fun node => node.proof.as_options)
        data_root := some n0.proof.root
        replica_id := some public_inputs.replica_id
        degree := public_params.graphDegree }
  | _, _ => none

/-- `cache_prefix` (source lines 105–111): the `CacheableParameters`
implementation is generic in the engine, circuit and graph types and
always returns the same literal; the graph-type parameter mirrors that
genericity. -/
def cache_prefix (G : Type u) : String :=
  "private-drg-proof-of-replication"

/-- Constraint-system variables: the constant-one input and auxiliary
(witness) variables, numbered in allocation order. -/
inductive Var where
  | one
  | aux (i : Nat)
deriving DecidableEq

/-- One entry of the emitted constraint trace.  `enforce a b c` is an
explicit rank-1 constraint `a * b = c` emitted by the source file itself;
`block tag arity` stands for the whole constraint block contributed by one
invocation of an external sub-circuit, whose internal topology is a fixed
function of the listed structural arities. -/
inductive Constraint where
  | enforce (a b c : List (Var × Nat))
  | block (tag : String) (arity : List Nat)
deriving DecidableEq

/-- Constraint-system state: public-input assignments in allocation order
(the constant-one input is excluded), the auxiliary-variable count, and
the emitted constraint trace. -/
@[ext]
structure CS where
  inputs : List (Option Fr)
  numAux : Nat
  constraints : List Constraint
deriving DecidableEq

/-- Errors: `assignmentMissing` models `SynthesisError::AssignmentMissing`;
`assertionFailed` models a Rust `assert!`/`assert_eq!` panic;
`indexOutOfRange` models an out-of-bounds slice or `Vec`-index panic. -/
inductive SynthesisError where
  | assignmentMissing
  | assertionFailed
  | indexOutOfRange
deriving DecidableEq

/-- Reading a witness value at an allocation site.  In structure-only mode
(`so = true`, parameter generation: the backend never invokes the value
closures) unknown values flow through as `none`; in concrete mode an
unknown value fails with `AssignmentMissing`. -/
def readVal (so : Bool) (v : Option Fr) : Except SynthesisError (Option Fr) :=
  if so then Except.ok none
  else
    match v with
    | some x => Except.ok (some x)
    | none => Except.error SynthesisError.assignmentMissing

/-- The direction-bit values an allocated path exposes. -/
def porDirs (so : Bool) (path : List (Option (Fr × Bool))) : List (Option Bool) :=
  path.map (fun e => if so then none else e.map Prod.snd)

/-- Allocate a path's sibling values and direction bits, returning the
direction-bit values. -/
def porDirsM (so : Bool) :
    List (Option (Fr × Bool)) → Except SynthesisError (List (Option Bool))
  | [] => Except.ok []
  | e :: rest =>
    match readVal so (e.map Prod.fst) with
    | Except.error err => Except.error err
    | Except.ok _ =>
      match porDirsM so rest with
      | Except.error err => Except.error err
      | Except.ok ds => Except.ok ((if so then none else e.map Prod.snd) :: ds)

/-- Modelled from the spec: `PrivatePoRCircuit::synthesize`
(`circuit/private_por.rs`, not in the source tree).  It allocates the leaf
value, the path (a sibling value and a direction bit per level) and the
root — all privately — emits its internal hash-chain constraint block, and
exposes exactly the packed path direction bits as public inputs (§6). -/
def porSynthesize (so : Bool) (value : Option Fr) (path : List (Option (Fr × Bool)))
    (root : Option Fr) (cs : CS) : Except SynthesisError CS :=
  match readVal so value with
  | Except.error e => Except.error e
  | Except.ok _ =>
    match porDirsM so path with
    | Except.error e => Except.error e
    | Except.ok dirs =>
      match readVal so root with
      | Except.error e => Except.error e
      | Except.ok _ =>
        Except.ok
          { inputs := cs.inputs ++ multipackOption dirs
            numAux := cs.numAux + (2 + 2 * path.length)
            constraints := cs.constraints ++ [Constraint.block "por" [path.length]] }

/-- Modelled from the spec: `bytes_into_boolean_vec` (`util.rs`, not in the
source tree): allocate the replica id as exactly `size` boolean variables
(§4.1 step 1 — "decompose ReplicaIdentity into exactly lambda bits"). -/
def bytes_into_boolean_vec (so : Bool) (value : Option Fr) (size : Nat) (cs : CS) :
    Except SynthesisError (List (Option Bool) × CS) :=
  let cs' : CS :=
    { cs with
        numAux := cs.numAux + size
        constraints := cs.constraints ++ [Constraint.block "boolean_vec" [size]] }
  if so then Except.ok (List.replicate size none, cs')
  else
    match value with
    | some v => Except.ok ((frBits v size).map some, cs')
    | none => Except.error SynthesisError.assignmentMissing

/-- `multipack::pack_into_inputs` (external, §6): allocate one public input
per `frCapacity`-bit chunk plus one packing-constraint block. -/
def pack_into_inputs (bits : List (Option Bool)) (cs : CS) : CS :=
  { cs with
      inputs := cs.inputs ++ multipackOption bits
      constraints := cs.constraints ++
        [Constraint.block "pack_into_inputs" [(chunksOf frCapacity bits).length]] }

/-- Modelled from the spec: `boolean::field_into_boolean_vec_le` (external,
sapling-crypto): allocate the little-endian bit decomposition of a field
element; the number of allocated bits is the field's native bit length
`nb`, independent of the value. -/
def field_into_boolean_vec_le (so : Bool) (nb : Nat) (value : Option Fr) (cs : CS) :
    Except SynthesisError (List (Option Bool) × CS) :=
  let cs' : CS :=
    { cs with
        numAux := cs.numAux + nb
        constraints := cs.constraints ++ [Constraint.block "field_bits" [nb]] }
  if so then Except.ok (List.replicate nb none, cs')
  else
    match value with
    | some v => Except.ok ((frBits v nb).map some, cs')
    | none => Except.error SynthesisError.assignmentMissing

/-- "Parents to bits" (source lines 341–358): bit-decompose each parent
value little-endian and push constant-false booleans while the length is
below 256.  Constant booleans have a known value in every mode. -/
def parentsToBits (so : Bool) (nb : Nat) :
    List (Option Fr) → CS → Except SynthesisError (List (List (Option Bool)) × CS)
  | [], cs => Except.ok ([], cs)
  | v :: rest, cs =>
    match field_into_boolean_vec_le so nb v cs with
    | Except.error e => Except.error e
    | Except.ok (bits, cs) =>
      match parentsToBits so nb rest cs with
      | Except.error e => Except.error e
      | Except.ok (bl, cs) =>
        Except.ok ((bits ++ List.replicate (256 - bits.length) (some false)) :: bl, cs)

/-- The per-challenge parent loop (source lines 319–330): for `i` in
`0..replica_parents.len()`, synthesize a private PoR for parent `i`
against the replica root, indexing `replica_parents_paths[i]`. -/
def synthParents (so : Bool) (root : Option Fr) :
    List (Option Fr) → List (List (Option (Fr × Bool))) → CS → Except SynthesisError CS
  | [], _, cs => Except.ok cs
  | _ :: _, [], _ => Except.error SynthesisError.indexOutOfRange
  | p :: ps, pth :: pths, cs =>
    match porSynthesize so p pth root cs with
    | Except.error e => Except.error e
    | Except.ok cs' => synthParents so root ps pths cs'

/-- Modelled from the spec: the key-derivation sub-circuit `kdf`
(`circuit/kdf.rs`, not in the source tree): a pure hash of the identity
bits and the ordered parent bit vectors; contributes no public inputs
(§6).  The derived key's numeric value is irrelevant to every verified
property and is abstracted; only its known/unknown status is tracked. -/
def kdf (so : Bool) (idBits : List (Option Bool)) (parentsBits : List (List (Option Bool)))
    (degree : Nat) (cs : CS) : Except SynthesisError (Option Fr × CS) :=
  Except.ok
    ( (if so then none else some 0),
      { cs with
          numAux := cs.numAux + 1
          constraints := cs.constraints ++
            [Constraint.block "kdf" [degree, idBits.length, parentsBits.length]] } )

/-- Modelled from the spec: the sequential-decode sub-circuit
`sloth::decode` (external, §6): allocates the decoded value — reading the
key and the ciphertext, hence failing on an unknown one in concrete mode —
and emits an iteration-count-sized constraint block.  The decoded numeric
value is abstracted; the returned variable is the decode output. -/
def sloth_decode (so : Bool) (key : Option Fr) (ciphertext : Option Fr) (iters : Nat)
    (cs : CS) : Except SynthesisError (Var × CS) :=
  let out : Var × CS :=
    ( Var.aux cs.numAux,
      { cs with
          numAux := cs.numAux + 1
          constraints := cs.constraints ++ [Constraint.block "sloth" [iters]] } )
  if so then Except.ok out
  else
    match key, ciphertext with
    | some _, some _ => Except.ok out
    | _, _ => Except.error SynthesisError.assignmentMissing

/-- One iteration of the per-challenge loop of
`PrivateDrgPoRepCircuit::synthesize` (source lines 299–390) at challenge
index `i`.  An error return aborts the whole synthesis call; no constraint
of the aborted iteration is emitted. -/
def synthChallenge (so : Bool) (nb : Nat) (w : PrivateDrgPoRepCircuit)
    (ridBits : List (Option Bool)) (i : Nat) (cs : CS) : Except SynthesisError CS :=
  match w.replica_nodes_paths.get? i, w.replica_parents_paths.get? i,
        w.data_nodes_paths.get? i, w.replica_nodes.get? i,
        w.replica_parents.get? i, w.data_nodes.get? i with
  | some replica_node_path, some parents_paths, some data_node_path,
    some replica_node, some replica_parents, some data_node =>
    if data_node_path.length = replica_node_path.length then
      match porSynthesize so replica_node replica_node_path w.replica_root cs with
      | Except.error e => Except.error e
      | Except.ok cs =>
        match synthParents so w.replica_root replica_parents parents_paths cs with
        | Except.error e => Except.error e
        | Except.ok cs =>
          match porSynthesize so data_node data_node_path w.data_root cs with
          | Except.error e => Except.error e
          | Except.ok cs =>
            match parentsToBits so nb replica_parents cs with
            | Except.error e => Except.error e
            | Except.ok (parents_bits, cs) =>
              match kdf so ridBits parents_bits w.degree cs with
              | Except.error e => Except.error e
              | Except.ok (key, cs) =>
                match sloth_decode so key replica_node w.sloth_iter cs with
                | Except.error e => Except.error e
                | Except.ok (decoded, cs) =>
                  match readVal so data_node with
                  | Except.error e => Except.error e
                  | Except.ok _ =>
                    Except.ok
                      { inputs := cs.inputs
                        numAux := cs.numAux + 1
                        constraints := cs.constraints ++
                          [Constraint.enforce [(Var.aux cs.numAux, 1)] [(Var.one, 1)]
                            [(decoded, 1)]] }
    else Except.error SynthesisError.assertionFailed
  | _, _, _, _, _, _ => Except.error SynthesisError.indexOutOfRange

/-- The challenge loop (`for i in 0..self.data_nodes.len()`). -/
def synthLoop (so : Bool) (nb : Nat) (w : PrivateDrgPoRepCircuit)
    (ridBits : List (Option Bool)) : List Nat → CS → Except SynthesisError CS
  | [], cs => Except.ok cs
  | i :: rest, cs =>
    match synthChallenge so nb w ridBits i cs with
    | Except.error e => Except.error e
    | Except.ok cs' => synthLoop so nb w ridBits rest cs'

/-- `PrivateDrgPoRepCircuit::synthesize` (source lines 265–393): decompose
the replica id into `lambda` allocated bits, pack the `Fr::CAPACITY`-bit
prefix into public inputs once, then run the per-challenge loop.  `so`
selects structure-only synthesis (parameter generation); `nb` is the
engine field's native bit length (255 for BLS12-381).  Slicing
`replica_id_bits[0..Fr::CAPACITY]` panics when fewer bits are available;
that panic is the `indexOutOfRange` case. -/
def synthesize (so : Bool) (nb : Nat) (w : PrivateDrgPoRepCircuit) :
    Except SynthesisError CS :=
  match bytes_into_boolean_vec so w.replica_id w.lambda
      { inputs := [], numAux := 0, constraints := [] } with
  | Except.error e => Except.error e
  | Except.ok (ridBits, cs) =>
    if frCapacity ≤ ridBits.length then
      synthLoop so nb w ridBits (List.range w.data_nodes.length)
        (pack_into_inputs (ridBits.take frCapacity) cs)
    else Except.error SynthesisError.indexOutOfRange

/-- Replace every witness value of a circuit by Unknown, keeping the whole
structure (every list length) intact: the witness shape used for
structure-only synthesis during parameter generation. -/
def unknownify (w : PrivateDrgPoRepCircuit) : PrivateDrgPoRepCircuit :=
  { w with
      replica_nodes := w.replica_nodes.map (fun _ => none)
      replica_nodes_paths := w.replica_nodes_paths.map (fun p => p.map (fun _ => none))
      replica_root := none
      replica_parents := w.replica_parents.map (fun ps => ps.map (fun _ => none))
      replica_parents_paths :=
        w.replica_parents_paths.map (fun ps => ps.map (fun p => p.map (fun _ => none)))
      data_nodes := w.data_nodes.map (fun _ => none)
      data_nodes_paths := w.data_nodes_paths.map (fun p => p.map (fun _ => none))
      data_root := none
      replica_id := none }

/-- Derived closed form: the bit values returned by the boolean-vector
allocators in each mode, for a value that is known whenever the mode is
concrete (the only situation in which they return at all). -/
def fieldBitsVal (so : Bool) (nb : Nat) (v : Option Fr) : List (Option Bool) :=
  if so then List.replicate nb none
  else
    match v with
    | some x => (frBits x nb).map some
    | none => []

/-- Derived closed form: public inputs appended by the parent PoR loop for
the first `k` parent paths. -/
def parentsPorInputs (so : Bool) (pths : List (List (Option (Fr × Bool)))) (k : Nat) :
    List (Option Fr) :=
  ((pths.take k).map (fun p => multipackOption (porDirs so p))).flatten

/-- Derived closed form: auxiliary variables allocated by the parent PoR
loop for the first `k` parent paths. -/
def parentsPorAux (pths : List (List (Option (Fr × Bool)))) (k : Nat) : Nat :=
  ((pths.take k).map (fun p => 2 + 2 * p.length)).sum

/-- Derived closed form: constraint blocks emitted by the parent PoR loop
for the first `k` parent paths. -/
def parentsPorCons (pths : List (List (Option (Fr × Bool)))) (k : Nat) : List Constraint :=
  (pths.take k).map (fun p => Constraint.block "por" [p.length])

/-- Is a trace entry the explicit rank-1 equality constraint? -/
def Constraint.isEnforce : Constraint → Bool
  | Constraint.enforce _ _ _ => true
  | _ => false

/-- Is a trace entry the replica-id public packing block? -/
def Constraint.isPack : Constraint → Bool
  | Constraint.block "pack_into_inputs" _ => true
  | _ => false

/-- Is a trace entry the replica-id bit-decomposition block? -/
def Constraint.isBoolVec : Constraint → Bool
  | Constraint.block "boolean_vec" _ => true
  | _ => false

/-- Did an `Except`-valued computation succeed? -/
def exceptIsOk : Except ε α → Bool
  | Except.ok _ => true
  | Except.error _ => false

/-! ### Concrete fixtures

Small concrete instances used to witness the theorems and to exhibit
counterexamples: a two-leaf graph of degree one, replica id `0`, and
all-zero node values. -/

/-- A Merkle proof of height one with the given direction bit. -/
def mpFix (b : Bool) : MerkleProof := { path := [(0, b)], root := 0 }

/-- A proved node with value `0` and a height-one path. -/
def dpFix (b : Bool) : DataProof := { data := 0, proof := mpFix b }

/-- Two-leaf, degree-one public parameters (lambda 256 bits). -/
def ppX : DrgPublicParams :=
  { lambda := 256, sloth_iter := 1, graphSize := 2, graphDegree := 1,
    graphParents := fun _ => [0] }

/-- Two challenges, no commitment. -/
def pinX : DrgPublicInputs := { replica_id := 0, challenges := [0, 1], tau := none }

/-- A two-challenge vanilla proof whose path direction bits encode the
challenged indices (0 and 1) and whose parent (node 0) paths encode 0. -/
def proofX : DrgProof :=
  { replica_nodes := [dpFix false, dpFix true]
    replica_parents := [[(0, dpFix false)], [(0, dpFix false)]]
    nodes := [dpFix false, dpFix true] }

/-- The circuit witness `circuit` builds from `proofX`. -/
def wX : PrivateDrgPoRepCircuit :=
  { lambda := 256, sloth_iter := 1
    replica_nodes := [some 0, some 0]
    replica_nodes_paths := [[some (0, false)], [some (0, true)]]
    replica_root := some 0
    replica_parents := [[some 0], [some 0]]
    replica_parents_paths := [[[some (0, false)]], [[some (0, false)]]]
    data_nodes := [some 0, some 0]
    data_nodes_paths := [[some (0, false)], [some (0, true)]]
    data_root := some 0
    replica_id := some 0
    degree := 1 }

/-- The public-input vector the generator produces for `pinX`/`ppX`. -/
def lX : List Fr :=
  match generate_public_inputs pinX ppX with
  | some l => l
  | none => []

/-- The constraint system the synthesizer produces for `wX`. -/
def csX : CS :=
  match synthesize false 255 wX with
  | Except.ok c => c
  | Except.error _ => { inputs := [], numAux := 0, constraints := [] }

/-- Single-challenge public parameters (lambda 254 bits). -/
def ppK : DrgPublicParams :=
  { lambda := 254, sloth_iter := 1, graphSize := 2, graphDegree := 1,
    graphParents := fun _ => [0] }

/-- One challenge (node 0), no commitment. -/
def pinK : DrgPublicInputs := { replica_id := 0, challenges := [0], tau := none }

/-- A single-challenge vanilla proof matching challenge 0. -/
def proofK : DrgProof :=
  { replica_nodes := [dpFix false]
    replica_parents := [[(0, dpFix false)]]
    nodes := [dpFix false] }

/-- The circuit witness `circuit` builds from `proofK`. -/
def wKc : PrivateDrgPoRepCircuit :=
  { lambda := 254, sloth_iter := 1
    replica_nodes := [some 0]
    replica_nodes_paths := [[some (0, false)]]
    replica_root := some 0
    replica_parents := [[some 0]]
    replica_parents_paths := [[[some (0, false)]]]
    data_nodes := [some 0]
    data_nodes_paths := [[some (0, false)]]
    data_root := some 0
    replica_id := some 0
    degree := 1 }

/-- The public-input vector the generator produces for `pinK`/`ppK`. -/
def lK : List Fr :=
  match generate_public_inputs pinK ppK with
  | some l => l
  | none => []

/-- The constraint system the synthesizer produces for `wKc`. -/
def csK : CS :=
  match synthesize false 255 wKc with
  | Except.ok c => c
  | Except.error _ => { inputs := [], numAux := 0, constraints := [] }

/-- `wKc` with an unknown replica id. -/
def wU : PrivateDrgPoRepCircuit := { wKc with replica_id := none }

/-- A witness whose single parent path has length 0 while the replica and
data paths have length 1: a parent-path mismatch. -/
def wC2 : PrivateDrgPoRepCircuit := { wKc with replica_parents_paths := [[[]]] }

/-- A witness whose data path has length 0 while the replica path has
length 1: a replica/data path mismatch. -/
def wC2m : PrivateDrgPoRepCircuit := { wKc with data_nodes_paths := [[]] }

/-- The constraint system produced by one concrete challenge iteration. -/
def csCh8 : CS :=
  match synthChallenge false 255 wKc (List.replicate 254 (none : Option Bool)) 0
      { inputs := [], numAux := 0, constraints := [] } with
  | Except.ok c => c
  | Except.error _ => { inputs := [], numAux := 0, constraints := [] }

/-- The result of the parents-to-bits stage on one known parent value. -/
def pb7 : List (List (Option Bool)) × CS :=
  match parentsToBits false 255 [some 0] { inputs := [], numAux := 0, constraints := [] } with
  | Except.ok r => r
  | Except.error _ => ([], { inputs := [], numAux := 0, constraints := [] })

/-! ### Basic facts about bits, packing and chunking -/

theorem frBits_length (v : Fr) (n : Nat) : (frBits v n).length = n := by
  simp [frBits]

theorem frBits_take (v : Fr) {k n : Nat} (h : k ≤ n) :
    (frBits v n).take k = frBits v k := by
  simp [frBits, ← List.map_take, List.take_range, Nat.min_eq_left h]

theorem chunksOfAux_nil (n fuel : Nat) : chunksOfAux n fuel ([] : List α) = [] := by
  cases fuel <;> rfl

theorem chunksOfAux_map (g : α → β) (n : Nat) :
    ∀ (fuel : Nat) (l : List α),
      chunksOfAux n fuel (l.map g) = (chunksOfAux n fuel l).map (List.map g) := by
  intro fuel
  induction fuel with
  | zero => intro l; cases l <;> rfl
  | succ f ih =>
    intro l
    cases l with
    | nil => rfl
    | cons x xs =>
      show ((x :: xs).map g).take n :: chunksOfAux n f (((x :: xs).map g).drop n)
          = ((x :: xs).take n).map g :: (chunksOfAux n f ((x :: xs).drop n)).map (List.map g)
      rw [← List.map_take, ← List.map_drop, ih]

theorem chunksOf_map (g : α → β) (n : Nat) (l : List α) :
    chunksOf n (l.map g) = (chunksOf n l).map (List.map g) := by
  simp [chunksOf, chunksOfAux_map]

theorem chunksOfAux_length_congr (n : Nat) :
    ∀ (fuel : Nat) (l : List α) (l' : List β), l.length = l'.length →
      (chunksOfAux n fuel l).length = (chunksOfAux n fuel l').length := by
  intro fuel
  induction fuel with
  | zero =>
    intro l l' h
    cases l <;> cases l' <;> simp_all [chunksOfAux]
  | succ f ih =>
    intro l l' h
    cases l with
    | nil => cases l' <;> simp_all [chunksOfAux]
    | cons x xs =>
      cases l' with
      | nil => simp at h
      | cons y ys =>
        show ((x :: xs).take n :: chunksOfAux n f ((x :: xs).drop n)).length
            = ((y :: ys).take n :: chunksOfAux n f ((y :: ys).drop n)).length
        simp only [List.length_cons, Nat.succ_inj]
        exact ih _ _ (by simp [List.length_drop, h])

theorem chunksOf_length_congr {l : List α} {l' : List β} (n : Nat)
    (h : l.length = l'.length) : (chunksOf n l).length = (chunksOf n l').length := by
  unfold chunksOf
  rw [h]
  exact chunksOfAux_length_congr n l'.length l l' h

theorem chunksOf_of_length_le {l : List α} {n : Nat} (h0 : l ≠ [])
    (h : l.length ≤ n) : chunksOf n l = [l] := by
  cases l with
  | nil => exact absurd rfl h0
  | cons x xs =>
    show (x :: xs).take n :: chunksOfAux n xs.length ((x :: xs).drop n) = [x :: xs]
    rw [List.take_of_length_le h, List.drop_eq_nil_of_le h, chunksOfAux_nil]

theorem seqOption_map_some (l : List α) : seqOption (l.map some) = some l := by
  induction l with
  | nil => rfl
  | cons x xs ih => simp [seqOption, ih]

theorem multipackOption_map_some (l : List Bool) :
    multipackOption (l.map some) = (computeMultipacking l).map some := by
  unfold multipackOption computeMultipacking
  rw [chunksOf_map, List.map_map, List.map_map]
  refine List.map_congr_left ?_
  intro chunk _
  simp [seqOption_map_some]

theorem multipackOption_length_congr {l l' : List (Option Bool)}
    (h : l.length = l'.length) :
    (multipackOption l).length = (multipackOption l').length := by
  unfold multipackOption
  rw [List.length_map, List.length_map]
  exact chunksOf_length_congr frCapacity h

theorem multipackOption_replicate_length (k : Nat) (l : List (Option Bool))
    (h : l.length = k) :
    (multipackOption l).length = (multipackOption (List.replicate k none)).length :=
  multipackOption_length_congr (by simp [h])

/-! ### Characterization of the modelled private-PoR synthesis -/

theorem porDirs_length (so : Bool) (path : List (Option (Fr × Bool))) :
    (porDirs so path).length = path.length := by
  simp [porDirs]

theorem readVal_true (v : Option Fr) : readVal true v = Except.ok none := rfl

theorem readVal_false_ok {v : Option Fr} {x : Option Fr}
    (h : readVal false v = Except.ok x) : v.isSome := by
  cases v with
  | some _ => rfl
  | none => simp [readVal] at h

theorem porDirsM_true (path : List (Option (Fr × Bool))) :
    porDirsM true path = Except.ok (porDirs true path) := by
  induction path with
  | nil => rfl
  | cons e rest ih =>
    unfold porDirsM
    rw [readVal_true, ih]
    simp [porDirs]

theorem porDirsM_false_ok :
    ∀ {path : List (Option (Fr × Bool))} {l : List (Option Bool)},
      porDirsM false path = Except.ok l →
      l = porDirs false path ∧ ∀ e ∈ path, e.isSome := by
  intro path
  induction path with
  | nil =>
    intro l h
    simp [porDirsM] at h
    simp [← h, porDirs]
  | cons e rest ih =>
    intro l h
    unfold porDirsM at h
    cases he : readVal false (e.map Prod.fst) with
    | error err => rw [he] at h; exact absurd h (by simp)
    | ok x =>
      rw [he] at h
      cases hr : porDirsM false rest with
      | error err => rw [hr] at h; exact absurd h (by simp)
      | ok ds =>
        rw [hr] at h
        simp at h
        obtain ⟨hd, hall⟩ := ih hr
        have hes : e.isSome := by
          have := readVal_false_ok he
          cases e <;> simp_all
        refine ⟨?_, ?_⟩
        · simp [← h, porDirs, hd, porDirs]
        · intro e' he'
          cases he' with
          | head => exact hes
          | tail _ hmem => exact hall e' hmem

theorem porSynthesize_ok {so : Bool} {value : Option Fr}
    {path : List (Option (Fr × Bool))} {root : Option Fr} {cs r : CS}
    (h : porSynthesize so value path root cs = Except.ok r) :
    r = { inputs := cs.inputs ++ multipackOption (porDirs so path)
          numAux := cs.numAux + (2 + 2 * path.length)
          constraints := cs.constraints ++ [Constraint.block "por" [path.length]] } ∧
    (so = false → value.isSome ∧ root.isSome ∧ ∀ e ∈ path, e.isSome) := by
  unfold porSynthesize at h
  cases so with
  | true =>
    rw [readVal_true, porDirsM_true, readVal_true] at h
    simp at h
    exact ⟨h.symm, by simp⟩
  | false =>
    cases hv : readVal false value with
    | error e => rw [hv] at h; exact absurd h (by simp)
    | ok xv =>
      rw [hv] at h
      cases hd : porDirsM false path with
      | error e => rw [hd] at h; exact absurd h (by simp)
      | ok dirs =>
        rw [hd] at h
        cases hr : readVal false root with
        | error e => rw [hr] at h; exact absurd h (by simp)
        | ok xr =>
          rw [hr] at h
          simp at h
          obtain ⟨hdirs, hall⟩ := porDirsM_false_ok hd
          refine ⟨by rw [← h, hdirs], fun _ => ⟨readVal_false_ok hv, readVal_false_ok hr, hall⟩⟩

theorem porSynthesize_true (value : Option Fr) (path : List (Option (Fr × Bool)))
    (root : Option Fr) (cs : CS) :
    porSynthesize true value path root cs =
      Except.ok
        { inputs := cs.inputs ++ multipackOption (porDirs true path)
          numAux := cs.numAux + (2 + 2 * path.length)
          constraints := cs.constraints ++ [Constraint.block "por" [path.length]] } := by
  unfold porSynthesize
  rw [readVal_true, porDirsM_true, readVal_true]

theorem porSynthesize_known (v : Fr) (raw : List (Fr × Bool)) (root : Fr) (cs : CS) :
    porSynthesize false (some v) (raw.map some) (some root) cs =
      Except.ok
        { inputs := cs.inputs ++ (computeMultipacking (raw.map Prod.snd)).map some
          numAux := cs.numAux + (2 + 2 * raw.length)
          constraints := cs.constraints ++ [Constraint.block "por" [raw.length]] } := by
  have hdirs : porDirsM false (raw.map some) = Except.ok ((raw.map Prod.snd).map some) := by
    induction raw with
    | nil => rfl
    | cons p rest ih => simp [porDirsM, readVal] at ih ⊢; rw [ih]
  unfold porSynthesize
  rw [hdirs]
  simp only [readVal, multipackOption_map_some]
  simp [← List.map_map, multipackOption_map_some]

/-! ### Characterization of the remaining allocation helpers -/

theorem bytes_into_boolean_vec_ok {so : Bool} {v : Option Fr} {k : Nat}
    {cs : CS} {bits : List (Option Bool)} {cs' : CS}
    (h : bytes_into_boolean_vec so v k cs = Except.ok (bits, cs')) :
    bits = fieldBitsVal so k v ∧ bits.length = k ∧
    cs' = { cs with
              numAux := cs.numAux + k
              constraints := cs.constraints ++ [Constraint.block "boolean_vec" [k]] } ∧
    (so = false → v.isSome) := by
  cases so with
  | true =>
    simp [bytes_into_boolean_vec] at h
    simp [← h.1, ← h.2, fieldBitsVal]
  | false =>
    cases v with
    | none => simp [bytes_into_boolean_vec] at h
    | some x =>
      simp [bytes_into_boolean_vec] at h
      simp [← h.1, ← h.2, fieldBitsVal, frBits_length]

theorem field_into_boolean_vec_le_ok {so : Bool} {nb : Nat} {v : Option Fr}
    {cs : CS} {bits : List (Option Bool)} {cs' : CS}
    (h : field_into_boolean_vec_le so nb v cs = Except.ok (bits, cs')) :
    bits = fieldBitsVal so nb v ∧ bits.length = nb ∧
    cs' = { cs with
              numAux := cs.numAux + nb
              constraints := cs.constraints ++ [Constraint.block "field_bits" [nb]] } ∧
    (so = false → v.isSome) := by
  cases so with
  | true =>
    simp [field_into_boolean_vec_le] at h
    simp [← h.1, ← h.2, fieldBitsVal]
  | false =>
    cases v with
    | none => simp [field_into_boolean_vec_le] at h
    | some x =>
      simp [field_into_boolean_vec_le] at h
      simp [← h.1, ← h.2, fieldBitsVal, frBits_length]

theorem kdf_ok {so : Bool} {idBits : List (Option Bool)}
    {pbits : List (List (Option Bool))} {deg : Nat} {cs : CS} {key : Option Fr} {cs' : CS}
    (h : kdf so idBits pbits deg cs = Except.ok (key, cs')) :
    key = (if so then none else some 0) ∧
    cs' = { cs with
              numAux := cs.numAux + 1
              constraints := cs.constraints ++
                [Constraint.block "kdf" [deg, idBits.length, pbits.length]] } := by
  simp [kdf] at h
  exact ⟨h.1.symm, h.2.symm⟩

theorem sloth_decode_ok {so : Bool} {key ct : Option Fr} {iters : Nat}
    {cs : CS} {dv : Var} {cs' : CS}
    (h : sloth_decode so key ct iters cs = Except.ok (dv, cs')) :
    dv = Var.aux cs.numAux ∧
    cs' = { cs with
              numAux := cs.numAux + 1
              constraints := cs.constraints ++ [Constraint.block "sloth" [iters]] } ∧
    (so = false → key.isSome ∧ ct.isSome) := by
  cases so with
  | true =>
    simp [sloth_decode] at h
    exact ⟨h.1.symm, h.2.symm, by simp⟩
  | false =>
    cases key with
    | none => simp [sloth_decode] at h
    | some kv =>
      cases ct with
      | none => simp [sloth_decode] at h
      | some cv =>
        simp [sloth_decode] at h
        exact ⟨h.1.symm, h.2.symm, fun _ => ⟨rfl, rfl⟩⟩

/-! ### Characterization of the parents-to-bits stage -/

theorem parentsToBits_ok {so : Bool} {nb : Nat} :
    ∀ {vals : List (Option Fr)} {cs : CS} {bl : List (List (Option Bool))} {cs' : CS},
      parentsToBits so nb vals cs = Except.ok (bl, cs') →
      bl = vals.map (fun v => fieldBitsVal so nb v ++
             List.replicate (256 - nb) (some false)) ∧
      cs'.inputs = cs.inputs ∧
      cs'.numAux = cs.numAux + vals.length * nb ∧
      cs'.constraints = cs.constraints ++
        List.replicate vals.length (Constraint.block "field_bits" [nb]) ∧
      (so = false → ∀ v ∈ vals, v.isSome) := by
  intro vals
  induction vals with
  | nil =>
    intro cs bl cs' h
    simp [parentsToBits] at h
    simp [← h.1, ← h.2]
  | cons v rest ih =>
    intro cs bl cs' h
    unfold parentsToBits at h
    split at h
    · exact absurd h (by simp)
    rename_i bits cs1 hf
    split at h
    · exact absurd h (by simp)
    rename_i bl2 cs2 hr
    simp at h
    obtain ⟨hbits, hlen, hcs1, hknown⟩ := field_into_boolean_vec_le_ok hf
    obtain ⟨hbl2, hin, hnum, hcons, hkn2⟩ := ih hr
    obtain ⟨hblh, hcs'⟩ := h
    subst hcs'
    constructor
    · rw [← hblh, hlen, hbits, hbl2]
      simp
    refine ⟨by rw [hin, hcs1], by rw [hnum, hcs1]; simp; ring, ?_, ?_⟩
    · rw [hcons, hcs1]
      simp [List.replicate_succ]
    · intro hso p hp
      cases hp with
      | head => exact hknown hso
      | tail _ hmem => exact hkn2 hso p hmem

theorem parentsToBits_true (nb : Nat) :
    ∀ (vals : List (Option Fr)) (cs : CS),
      parentsToBits true nb vals cs =
        Except.ok
          (vals.map (fun _ => List.replicate nb (none : Option Bool) ++
             List.replicate (256 - nb) (some false)),
           { cs with
               numAux := cs.numAux + vals.length * nb
               constraints := cs.constraints ++
                 List.replicate vals.length (Constraint.block "field_bits" [nb]) }) := by
  intro vals
  induction vals with
  | nil => intro cs; simp [parentsToBits]
  | cons v rest ih =>
    intro cs
    unfold parentsToBits
    have hf : field_into_boolean_vec_le true nb v cs =
        Except.ok (List.replicate nb (none : Option Bool),
          { cs with
              numAux := cs.numAux + nb
              constraints := cs.constraints ++ [Constraint.block "field_bits" [nb]] }) := by
      simp [field_into_boolean_vec_le]
    rw [hf]
    dsimp only
    rw [ih]
    dsimp only
    simp [List.replicate_succ]
    ring

/-! ### Characterization of the parent PoR loop -/

theorem synthParents_ok {so : Bool} {root : Option Fr} :
    ∀ {ps : List (Option Fr)} {pths : List (List (Option (Fr × Bool)))} {cs r : CS},
      synthParents so root ps pths cs = Except.ok r →
      ps.length ≤ pths.length ∧
      r = { inputs := cs.inputs ++ parentsPorInputs so pths ps.length
            numAux := cs.numAux + parentsPorAux pths ps.length
            constraints := cs.constraints ++ parentsPorCons pths ps.length } ∧
      (so = false →
        (∀ p ∈ ps, p.isSome) ∧ (ps ≠ [] → root.isSome) ∧
        ∀ pth ∈ pths.take ps.length, ∀ e ∈ pth, e.isSome) := by
  intro ps
  induction ps with
  | nil =>
    intro pths cs r h
    simp [synthParents] at h
    refine ⟨by simp, ?_, by simp⟩
    simp [parentsPorInputs, parentsPorAux, parentsPorCons, ← h]
  | cons p ps ih =>
    intro pths cs r h
    cases pths with
    | nil => simp [synthParents] at h
    | cons pth pths =>
      unfold synthParents at h
      split at h
      · exact absurd h (by simp)
      rename_i cs1 hpor
      obtain ⟨hlen, hr, hkn⟩ := ih h
      obtain ⟨hcs1, hknown⟩ := porSynthesize_ok hpor
      refine ⟨by simpa using hlen, ?_, ?_⟩
      · rw [hr, hcs1]
        simp [parentsPorInputs, parentsPorAux, parentsPorCons, Nat.add_assoc]
      · intro hso
        obtain ⟨hv, hroot, hpath⟩ := hknown hso
        obtain ⟨hps, _, hpths⟩ := hkn hso
        refine ⟨?_, fun _ => hroot, ?_⟩
        · intro q hq
          cases hq with
          | head => exact hv
          | tail _ hmem => exact hps q hmem
        · intro pth' hpth' e he
          simp [List.take_succ_cons] at hpth'
          cases hpth' with
          | inl heq => subst heq; exact hpath e he
          | inr hmem => exact hpths pth' hmem e he

theorem synthParents_true (root : Option Fr) :
    ∀ (ps : List (Option Fr)) (pths : List (List (Option (Fr × Bool)))) (cs : CS),
      ps.length ≤ pths.length →
      synthParents true root ps pths cs =
        Except.ok { inputs := cs.inputs ++ parentsPorInputs true pths ps.length
                    numAux := cs.numAux + parentsPorAux pths ps.length
                    constraints := cs.constraints ++ parentsPorCons pths ps.length } := by
  intro ps
  induction ps with
  | nil =>
    intro pths cs _
    simp [synthParents, parentsPorInputs, parentsPorAux, parentsPorCons]
  | cons p ps ih =>
    intro pths cs hlen
    cases pths with
    | nil => simp at hlen
    | cons pth pths =>
      unfold synthParents
      rw [porSynthesize_true]
      dsimp only
      rw [ih pths _ (by simpa using hlen)]
      simp [parentsPorInputs, parentsPorAux, parentsPorCons, Nat.add_assoc]

/-! ### Characterization of one challenge iteration -/

theorem synthChallenge_ok {so : Bool} {nb : Nat} {w : PrivateDrgPoRepCircuit}
    {ridBits : List (Option Bool)} {i : Nat} {cs r : CS}
    (h : synthChallenge so nb w ridBits i cs = Except.ok r) :
    ∃ rp pthss dp rn rps dn,
      w.replica_nodes_paths.get? i = some rp ∧
      w.replica_parents_paths.get? i = some pthss ∧
      w.data_nodes_paths.get? i = some dp ∧
      w.replica_nodes.get? i = some rn ∧
      w.replica_parents.get? i = some rps ∧
      w.data_nodes.get? i = some dn ∧
      dp.length = rp.length ∧
      rps.length ≤ pthss.length ∧
      r = { inputs := cs.inputs ++ multipackOption (porDirs so rp)
              ++ parentsPorInputs so pthss rps.length ++ multipackOption (porDirs so dp)
            numAux := cs.numAux + (2 + 2 * rp.length) + parentsPorAux pthss rps.length
              + (2 + 2 * dp.length) + rps.length * nb + 3
            constraints := cs.constraints
              ++ [Constraint.block "por" [rp.length]]
              ++ parentsPorCons pthss rps.length
              ++ [Constraint.block "por" [dp.length]]
              ++ List.replicate rps.length (Constraint.block "field_bits" [nb])
              ++ [Constraint.block "kdf" [w.degree, ridBits.length, rps.length]]
              ++ [Constraint.block "sloth" [w.sloth_iter]]
              ++ [Constraint.enforce
                    [(Var.aux (cs.numAux + (2 + 2 * rp.length) + parentsPorAux pthss rps.length
                        + (2 + 2 * dp.length) + rps.length * nb + 2), 1)]
                    [(Var.one, 1)]
                    [(Var.aux (cs.numAux + (2 + 2 * rp.length) + parentsPorAux pthss rps.length
                        + (2 + 2 * dp.length) + rps.length * nb + 1), 1)]] } ∧
      (so = false →
        rn.isSome ∧ dn.isSome ∧ w.replica_root.isSome ∧ w.data_root.isSome ∧
        (∀ e ∈ rp, e.isSome) ∧ (∀ e ∈ dp, e.isSome) ∧ (∀ p ∈ rps, p.isSome) ∧
        (∀ pth ∈ pthss.take rps.length, ∀ e ∈ pth, e.isSome)) := by
  unfold synthChallenge at h
  split at h
  · rename_i rp pthss dp rn rps dn h1 h2 h3 h4 h5 h6
    split at h
    · rename_i hlen
      split at h
      · exact absurd h (by simp)
      rename_i cs1 hpor1
      split at h
      · exact absurd h (by simp)
      rename_i cs2 hpar
      split at h
      · exact absurd h (by simp)
      rename_i cs3 hpor2
      split at h
      · exact absurd h (by simp)
      rename_i parents_bits cs4 hptb
      split at h
      · exact absurd h (by simp)
      rename_i key cs5 hkdf
      split at h
      · exact absurd h (by simp)
      rename_i decoded cs6 hsloth
      split at h
      · exact absurd h (by simp)
      rename_i xv hread
      simp only [Except.ok.injEq] at h
      obtain ⟨hcs1, hk1⟩ := porSynthesize_ok hpor1
      obtain ⟨hplen, hcs2, hk2⟩ := synthParents_ok hpar
      obtain ⟨hcs3, hk3⟩ := porSynthesize_ok hpor2
      obtain ⟨hbl, hin4, hnum4, hcons4, hk4⟩ := parentsToBits_ok hptb
      obtain ⟨hkey, hcs5⟩ := kdf_ok hkdf
      obtain ⟨hdec, hcs6, hk6⟩ := sloth_decode_ok hsloth
      refine ⟨rp, pthss, dp, rn, rps, dn, h1, h2, h3, h4, h5, h6, hlen, hplen, ?_, ?_⟩
      · rw [← h]
        have hblen : parents_bits.length = rps.length := by simp [hbl]
        rw [hcs6, hcs5]
        refine CS.ext ?_ ?_ ?_
        · simp [hin4, hcs3, hcs2, hcs1, List.append_assoc]
        · simp [hdec, hcs5, hnum4, hcs3, hcs2, hcs1]
        · simp [hdec, hcs5, hcons4, hcs3, hcs2, hcs1, hblen, hnum4, List.append_assoc]
      · intro hso
        obtain ⟨hv1, hroot1, hpath1⟩ := hk1 hso
        obtain ⟨hps2, _, hpths2⟩ := hk2 hso
        obtain ⟨hv3, hroot3, hpath3⟩ := hk3 hso
        have hdn : dn.isSome := by
          have := hread
          unfold readVal at this
          rw [hso] at this
          cases dn with
          | some _ => rfl
          | none => simp at this
        exact ⟨hv1, hdn, hroot1, hroot3, hpath1, hpath3, hps2, hpths2⟩
    · exact absurd h (by simp)
  all_goals exact absurd h (by simp)

/-! ### Structure-only synthesis matches the concrete topology -/

theorem parentsPorAux_map (f : Option (Fr × Bool) → Option (Fr × Bool))
    (pths : List (List (Option (Fr × Bool)))) (k : Nat) :
    parentsPorAux (pths.map (List.map f)) k = parentsPorAux pths k := by
  unfold parentsPorAux
  rw [← List.map_take]
  induction pths.take k with
  | nil => rfl
  | cons p rest ih => simp only [List.map_cons, List.sum_cons, ih, List.length_map]

theorem parentsPorCons_map (f : Option (Fr × Bool) → Option (Fr × Bool))
    (pths : List (List (Option (Fr × Bool)))) (k : Nat) :
    parentsPorCons (pths.map (List.map f)) k = parentsPorCons pths k := by
  unfold parentsPorCons
  rw [← List.map_take]
  induction pths.take k with
  | nil => rfl
  | cons p rest ih => simp only [List.map_cons, ih, List.length_map]

theorem parentsPorInputs_length_map (so so' : Bool)
    (f : Option (Fr × Bool) → Option (Fr × Bool))
    (pths : List (List (Option (Fr × Bool)))) (k : Nat) :
    (parentsPorInputs so (pths.map (List.map f)) k).length =
      (parentsPorInputs so' pths k).length := by
  unfold parentsPorInputs
  rw [← List.map_take]
  induction pths.take k with
  | nil => rfl
  | cons p rest ih =>
    simp only [List.map_cons, List.flatten_cons, List.length_append, ih]
    rw [multipackOption_length_congr (by simp [porDirs] :
      (porDirs so (p.map f)).length = (porDirs so' p).length)]

theorem synthChallenge_sim {nb : Nat} {w : PrivateDrgPoRepCircuit}
    {ridBits ridBits' : List (Option Bool)} {i : Nat} {cs cs' r : CS}
    (hlenb : ridBits'.length = ridBits.length)
    (hnum : cs'.numAux = cs.numAux) (hcons : cs'.constraints = cs.constraints)
    (hinlen : cs'.inputs.length = cs.inputs.length)
    (h : synthChallenge false nb w ridBits i cs = Except.ok r) :
    ∃ r', synthChallenge true nb (unknownify w) ridBits' i cs' = Except.ok r' ∧
      r'.numAux = r.numAux ∧ r'.constraints = r.constraints ∧
      r'.inputs.length = r.inputs.length := by
  obtain ⟨rp, pthss, dp, rn, rps, dn, h1, h2, h3, h4, h5, h6, hlen, hplen, hr, _⟩ :=
    synthChallenge_ok h
  have u1 : (unknownify w).replica_nodes_paths.get? i =
      some (rp.map (fun _ => (none : Option (Fr × Bool)))) := by
    show (w.replica_nodes_paths.map
      (fun p => p.map (fun _ => (none : Option (Fr × Bool))))).get? i = _
    rw [List.get?_map, h1]; rfl
  have u2 : (unknownify w).replica_parents_paths.get? i =
      some (pthss.map (List.map (fun _ => (none : Option (Fr × Bool))))) := by
    show (w.replica_parents_paths.map
      (fun ps => ps.map (fun p => p.map (fun _ => (none : Option (Fr × Bool)))))).get? i = _
    rw [List.get?_map, h2]; rfl
  have u3 : (unknownify w).data_nodes_paths.get? i =
      some (dp.map (fun _ => (none : Option (Fr × Bool)))) := by
    show (w.data_nodes_paths.map
      (fun p => p.map (fun _ => (none : Option (Fr × Bool))))).get? i = _
    rw [List.get?_map, h3]; rfl
  have u4 : (unknownify w).replica_nodes.get? i = some (none : Option Fr) := by
    show (w.replica_nodes.map (fun _ => (none : Option Fr))).get? i = _
    rw [List.get?_map, h4]; rfl
  have u5 : (unknownify w).replica_parents.get? i =
      some (rps.map (fun _ => (none : Option Fr))) := by
    show (w.replica_parents.map (fun ps => ps.map (fun _ => (none : Option Fr)))).get? i = _
    rw [List.get?_map, h5]; rfl
  have u6 : (unknownify w).data_nodes.get? i = some (none : Option Fr) := by
    show (w.data_nodes.map (fun _ => (none : Option Fr))).get? i = _
    rw [List.get?_map, h6]; rfl
  have hsucc : ∃ r', synthChallenge true nb (unknownify w) ridBits' i cs' = Except.ok r' := by
    unfold synthChallenge
    rw [u1, u2, u3, u4, u5, u6]
    dsimp only
    rw [if_pos (by simp [hlen])]
    rw [porSynthesize_true]
    dsimp only
    rw [synthParents_true _ _ _ _ (by simpa using hplen)]
    dsimp only
    rw [porSynthesize_true]
    dsimp only
    rw [parentsToBits_true]
    dsimp only
    simp only [kdf, sloth_decode]
    try dsimp only
    rw [readVal_true]
    exact ⟨_, rfl⟩
  obtain ⟨r', h'⟩ := hsucc
  obtain ⟨rp2, pthss2, dp2, rn2, rps2, dn2, g1, g2, g3, g4, g5, g6, _, _, hr', _⟩ :=
    synthChallenge_ok h'
  have erp : rp2 = rp.map (fun _ => (none : Option (Fr × Bool))) :=
    Option.some_inj.mp (g1.symm.trans u1)
  have epthss : pthss2 = pthss.map (List.map (fun _ => (none : Option (Fr × Bool)))) :=
    Option.some_inj.mp (g2.symm.trans u2)
  have edp : dp2 = dp.map (fun _ => (none : Option (Fr × Bool))) :=
    Option.some_inj.mp (g3.symm.trans u3)
  have erps : rps2 = rps.map (fun _ => (none : Option Fr)) :=
    Option.some_inj.mp (g5.symm.trans u5)
  subst erp; subst epthss; subst edp; subst erps
  have hm1 : (multipackOption (porDirs true
      (rp.map (fun _ => (none : Option (Fr × Bool)))))).length =
      (multipackOption (porDirs false rp)).length :=
    multipackOption_length_congr (by simp [porDirs])
  have hm2 : (multipackOption (porDirs true
      (dp.map (fun _ => (none : Option (Fr × Bool)))))).length =
      (multipackOption (porDirs false dp)).length :=
    multipackOption_length_congr (by simp [porDirs])
  have hm3 := parentsPorInputs_length_map true false
    (fun _ => (none : Option (Fr × Bool))) pthss rps.length
  refine ⟨r', h', ?_, ?_, ?_⟩
  · rw [hr', hr]
    simp [hnum, parentsPorAux_map]
  · rw [hr', hr]
    simp [hnum, hcons, hlenb, parentsPorAux_map, parentsPorCons_map, unknownify]
  · rw [hr', hr]
    simp only [List.length_append, List.length_map, hm1, hm2, hm3, hinlen]

/-! ### The challenge loop -/

theorem synthLoop_ok {so : Bool} {nb : Nat} {w : PrivateDrgPoRepCircuit}
    {ridBits : List (Option Bool)} :
    ∀ {is : List Nat} {cs r : CS},
      synthLoop so nb w ridBits is cs = Except.ok r →
      ∃ Δc Δi,
        r.constraints = cs.constraints ++ Δc ∧
        r.inputs = cs.inputs ++ Δi ∧
        (∀ c ∈ Δc, c.isPack = false ∧ c.isBoolVec = false) ∧
        Δc.countP Constraint.isEnforce = is.length ∧
        (∀ c ∈ Δc, c.isEnforce = true →
          ∃ a d, c = Constraint.enforce [(Var.aux a, 1)] [(Var.one, 1)] [(Var.aux d, 1)]) ∧
        (so = false → ∀ i ∈ is, ∃ x, w.data_nodes.get? i = some (some x)) := by
  intro is
  induction is with
  | nil =>
    intro cs r h
    simp [synthLoop] at h
    exact ⟨[], [], by simp [← h], by simp [← h], by simp, by simp, by simp, by simp⟩
  | cons i rest ih =>
    intro cs r h
    unfold synthLoop at h
    split at h
    · exact absurd h (by simp)
    rename_i cs1 hch
    obtain ⟨Δc, Δi, hcons, hin, hblocks, hcount, hshape, hkn⟩ := ih h
    obtain ⟨rp, pthss, dp, rn, rps, dn, _, _, _, _, _, h6, _, _, hr1, hk1⟩ :=
      synthChallenge_ok hch
    have hcs1cons : cs1.constraints = cs.constraints ++
        ([Constraint.block "por" [rp.length]]
          ++ parentsPorCons pthss rps.length
          ++ [Constraint.block "por" [dp.length]]
          ++ List.replicate rps.length (Constraint.block "field_bits" [nb])
          ++ [Constraint.block "kdf" [w.degree, ridBits.length, rps.length]]
          ++ [Constraint.block "sloth" [w.sloth_iter]]
          ++ [Constraint.enforce
                [(Var.aux (cs.numAux + (2 + 2 * rp.length) + parentsPorAux pthss rps.length
                    + (2 + 2 * dp.length) + rps.length * nb + 2), 1)]
                [(Var.one, 1)]
                [(Var.aux (cs.numAux + (2 + 2 * rp.length) + parentsPorAux pthss rps.length
                    + (2 + 2 * dp.length) + rps.length * nb + 1), 1)]]) := by
      rw [hr1]
      simp [List.append_assoc]
    have hcs1in : cs1.inputs = cs.inputs ++
        (multipackOption (porDirs so rp) ++ parentsPorInputs so pthss rps.length
          ++ multipackOption (porDirs so dp)) := by
      rw [hr1]
      simp [List.append_assoc]
    refine ⟨([Constraint.block "por" [rp.length]]
          ++ parentsPorCons pthss rps.length
          ++ [Constraint.block "por" [dp.length]]
          ++ List.replicate rps.length (Constraint.block "field_bits" [nb])
          ++ [Constraint.block "kdf" [w.degree, ridBits.length, rps.length]]
          ++ [Constraint.block "sloth" [w.sloth_iter]]
          ++ [Constraint.enforce
                [(Var.aux (cs.numAux + (2 + 2 * rp.length) + parentsPorAux pthss rps.length
                    + (2 + 2 * dp.length) + rps.length * nb + 2), 1)]
                [(Var.one, 1)]
                [(Var.aux (cs.numAux + (2 + 2 * rp.length) + parentsPorAux pthss rps.length
                    + (2 + 2 * dp.length) + rps.length * nb + 1), 1)]]) ++ Δc,
        (multipackOption (porDirs so rp) ++ parentsPorInputs so pthss rps.length
          ++ multipackOption (porDirs so dp)) ++ Δi, ?_, ?_, ?_, ?_, ?_, ?_⟩
    · rw [hcons, hcs1cons, List.append_assoc]
    · rw [hin, hcs1in, List.append_assoc]
    · intro c hc
      rw [List.mem_append] at hc
      cases hc with
      | inr hmem => exact hblocks c hmem
      | inl hmem =>
        simp only [List.append_assoc, List.mem_append, List.mem_singleton,
          List.mem_replicate, parentsPorCons, List.mem_map] at hmem
        rcases hmem with h' | ⟨⟨p, _, h'⟩ | h' | ⟨_, h'⟩ | h' | h' | h'⟩ <;>
          subst h' <;> exact ⟨rfl, rfl⟩
    · rw [List.countP_append, hcount]
      have hz : ∀ c ∈ ([Constraint.block "por" [rp.length]]
          ++ parentsPorCons pthss rps.length
          ++ [Constraint.block "por" [dp.length]]
          ++ List.replicate rps.length (Constraint.block "field_bits" [nb])
          ++ [Constraint.block "kdf" [w.degree, ridBits.length, rps.length]]
          ++ [Constraint.block "sloth" [w.sloth_iter]]), c.isEnforce = false := by
        intro c hc
        simp only [List.append_assoc, List.mem_append, List.mem_singleton,
          List.mem_replicate, parentsPorCons, List.mem_map] at hc
        rcases hc with h' | ⟨⟨p, _, h'⟩ | h' | ⟨_, h'⟩ | h' | h'⟩ <;> subst h' <;> rfl
      rw [show ([Constraint.block "por" [rp.length]]
          ++ parentsPorCons pthss rps.length
          ++ [Constraint.block "por" [dp.length]]
          ++ List.replicate rps.length (Constraint.block "field_bits" [nb])
          ++ [Constraint.block "kdf" [w.degree, ridBits.length, rps.length]]
          ++ [Constraint.block "sloth" [w.sloth_iter]]
          ++ [Constraint.enforce
                [(Var.aux (cs.numAux + (2 + 2 * rp.length) + parentsPorAux pthss rps.length
                    + (2 + 2 * dp.length) + rps.length * nb + 2), 1)]
                [(Var.one, 1)]
                [(Var.aux (cs.numAux + (2 + 2 * rp.length) + parentsPorAux pthss rps.length
                    + (2 + 2 * dp.length) + rps.length * nb + 1), 1)]]).countP
          Constraint.isEnforce = 1 from ?_]
      · simp only [List.length_cons]
        omega
      · rw [List.countP_append]
        rw [List.countP_eq_zero.mpr (by intro c hc; simp [hz c hc])]
        rfl
    · intro c hc
      rw [List.mem_append] at hc
      cases hc with
      | inr hmem => exact hshape c hmem
      | inl hmem =>
        intro henf
        simp only [List.append_assoc, List.mem_append, List.mem_singleton,
          List.mem_replicate, parentsPorCons, List.mem_map] at hmem
        rcases hmem with h' | ⟨⟨p, _, h'⟩ | h' | ⟨_, h'⟩ | h' | h' | h'⟩ <;> subst h' <;>
          first
            | exact ⟨_, _, rfl⟩
            | simp [Constraint.isEnforce] at henf
    · intro hso j hj
      cases hj with
      | head =>
        obtain ⟨_, hdn, _⟩ := hk1 hso
        cases dn with
        | some x => exact ⟨x, h6⟩
        | none => simp at hdn
      | tail _ hmem => exact hkn hso j hmem

theorem synthLoop_sim {nb : Nat} {w : PrivateDrgPoRepCircuit}
    {ridBits ridBits' : List (Option Bool)} (hlenb : ridBits'.length = ridBits.length) :
    ∀ {is : List Nat} {cs cs' r : CS},
      cs'.numAux = cs.numAux → cs'.constraints = cs.constraints →
      cs'.inputs.length = cs.inputs.length →
      synthLoop false nb w ridBits is cs = Except.ok r →
      ∃ r', synthLoop true nb (unknownify w) ridBits' is cs' = Except.ok r' ∧
        r'.numAux = r.numAux ∧ r'.constraints = r.constraints ∧
        r'.inputs.length = r.inputs.length := by
  intro is
  induction is with
  | nil =>
    intro cs cs' r hn hc hi h
    simp [synthLoop] at h
    exact ⟨cs', by simp [synthLoop], by rw [← h, hn], by rw [← h, hc], by rw [← h, hi]⟩
  | cons i rest ih =>
    intro cs cs' r hn hc hi h
    unfold synthLoop at h
    split at h
    · exact absurd h (by simp)
    rename_i cs1 hch
    obtain ⟨cs1', hch', hn1, hc1, hi1⟩ := synthChallenge_sim hlenb hn hc hi hch
    obtain ⟨r', hrest', hn2, hc2, hi2⟩ := ih hn1 hc1 hi1 h
    refine ⟨r', ?_, hn2, hc2, hi2⟩
    unfold synthLoop
    rw [hch']
    exact hrest'

/-! ### Top-level synthesis -/

theorem synthesize_ok {so : Bool} {nb : Nat} {w : PrivateDrgPoRepCircuit} {cs : CS}
    (h : synthesize so nb w = Except.ok cs) :
    ∃ Δc Δi,
      frCapacity ≤ w.lambda ∧
      (so = false → w.replica_id.isSome) ∧
      cs.constraints = [Constraint.block "boolean_vec" [w.lambda],
        Constraint.block "pack_into_inputs" [1]] ++ Δc ∧
      cs.inputs = multipackOption ((fieldBitsVal so w.lambda w.replica_id).take frCapacity)
        ++ Δi ∧
      (∀ c ∈ Δc, c.isPack = false ∧ c.isBoolVec = false) ∧
      Δc.countP Constraint.isEnforce = w.data_nodes.length ∧
      (∀ c ∈ Δc, c.isEnforce = true →
        ∃ a d, c = Constraint.enforce [(Var.aux a, 1)] [(Var.one, 1)] [(Var.aux d, 1)]) ∧
      (so = false → ∀ i ∈ List.range w.data_nodes.length,
        ∃ x, w.data_nodes.get? i = some (some x)) := by
  unfold synthesize at h
  split at h
  · exact absurd h (by simp)
  rename_i ridBits cs0 hbv
  obtain ⟨hbits, hblen, hcs0, hknown⟩ := bytes_into_boolean_vec_ok hbv
  split at h
  · rename_i hcap
    rw [hblen] at hcap
    obtain ⟨Δc, Δi, hcons, hin, hblocks, hcount, hshape, hkn⟩ := synthLoop_ok h
    have hone : (chunksOf frCapacity (ridBits.take frCapacity)).length = 1 := by
      rw [chunksOf_of_length_le]
      · rfl
      · have : (ridBits.take frCapacity).length = frCapacity := by
          simp [hblen, Nat.min_eq_left hcap]
        intro hnil
        rw [hnil] at this
        simp [frCapacity] at this
      · simp
    refine ⟨Δc, Δi, hcap, hknown, ?_, ?_, hblocks, by simpa using hcount, hshape, ?_⟩
    · rw [hcons, hcs0]
      simp [pack_into_inputs, hone]
    · rw [hin, hcs0, hbits]
      simp [pack_into_inputs]
    · intro hso i hi
      exact hkn hso i hi
  · exact absurd h (by simp)

theorem synthesize_concrete_needs_replica_id {nb : Nat} {w : PrivateDrgPoRepCircuit}
    (h : w.replica_id = none) :
    synthesize false nb w = Except.error SynthesisError.assignmentMissing := by
  unfold synthesize bytes_into_boolean_vec
  rw [h]
  rfl

theorem synthesize_sim {nb : Nat} {w : PrivateDrgPoRepCircuit} {cs : CS}
    (h : synthesize false nb w = Except.ok cs) :
    ∃ cs', synthesize true nb (unknownify w) = Except.ok cs' ∧
      cs'.constraints = cs.constraints ∧ cs'.numAux = cs.numAux ∧
      cs'.inputs.length = cs.inputs.length := by
  unfold synthesize at h
  split at h
  · exact absurd h (by simp)
  rename_i ridBits cs0 hbv
  obtain ⟨hbits, hblen, hcs0, _⟩ := bytes_into_boolean_vec_ok hbv
  split at h
  case _ hcap =>
    have hul : (unknownify w).lambda = w.lambda := rfl
    have hurid : (unknownify w).replica_id = none := rfl
    have hbv' : bytes_into_boolean_vec true (unknownify w).replica_id (unknownify w).lambda
        { inputs := [], numAux := 0, constraints := [] } =
        Except.ok (List.replicate w.lambda (none : Option Bool),
          { inputs := [], numAux := 0 + w.lambda,
            constraints := [] ++ [Constraint.block "boolean_vec" [w.lambda]] }) := by
      rw [hul, hurid]
      simp [bytes_into_boolean_vec]
    have hlen' : (List.replicate w.lambda (none : Option Bool)).length = ridBits.length := by
      simp [hblen]
    have htklen : ((List.replicate w.lambda (none : Option Bool)).take frCapacity).length =
        (ridBits.take frCapacity).length := by
      simp [hblen]
    have hudn : (unknownify w).data_nodes.length = w.data_nodes.length := by
      show (w.data_nodes.map (fun _ => (none : Option Fr))).length = _
      simp
    obtain ⟨cs', hloop', hn', hc', hi'⟩ :=
      @synthLoop_sim nb w ridBits (List.replicate w.lambda (none : Option Bool)) hlen'
        (List.range w.data_nodes.length)
        (pack_into_inputs (ridBits.take frCapacity) cs0)
        (pack_into_inputs ((List.replicate w.lambda (none : Option Bool)).take
          frCapacity)
          { inputs := [], numAux := 0 + w.lambda,
            constraints := [] ++ [Constraint.block "boolean_vec" [w.lambda]] })
        cs
        (by simp [pack_into_inputs, hcs0])
        (by
          simp only [pack_into_inputs, hcs0]
          rw [chunksOf_length_congr frCapacity htklen])
        (by
          simp only [pack_into_inputs, hcs0]
          simp only [List.length_append]
          rw [multipackOption_length_congr htklen])
        h
    refine ⟨cs', ?_, hc', hn', hi'⟩
    unfold synthesize
    rw [hbv']
    dsimp only
    rw [if_pos (by simpa [hblen] using hcap)]
    rw [hudn]
    exact hloop'
  · exact absurd h (by simp)

/-! ### Claim theorems -/

/-- C9: `cache_prefix()` returns the fixed string literal
"private-drg-proof-of-replication" on every call, independent of the
concrete graph type parameter or any other state. -/
theorem cache_prefix_constant :
    ∀ (G : Type), cache_prefix G = "private-drg-proof-of-replication" :=
  fun _ => rfl

/-- Witness for C9 at a concrete graph type. -/
theorem cache_prefix_constant_witness :
    cache_prefix Nat = "private-drg-proof-of-replication" :=
  cache_prefix_constant Nat

/-- C10: `circuit()` has the implicit precondition that the vanilla proof
contains at least one challenge: it unconditionally indexes the first
element of `proof.replica_nodes` and `proof.nodes`, so for empty challenge
lists the call panics (modelled: returns `none`) instead of returning a
witness, and only then. -/
theorem circuit_requires_nonempty_challenges :
    ∀ (pin : DrgPublicInputs) (proof : DrgProof) (pp : DrgPublicParams),
      circuit pin proof pp = none ↔ proof.replica_nodes = [] ∨ proof.nodes = [] := by
  intro pin proof pp
  unfold circuit
  cases hr : proof.replica_nodes <;> cases hn : proof.nodes <;> simp [hr, hn]

/-- Witness for C10: a vanilla proof with empty challenge lists makes
`circuit` abort. -/
theorem circuit_requires_nonempty_challenges_witness :
    circuit pinK { replica_nodes := [], replica_parents := [], nodes := [] } ppK = none :=
  (circuit_requires_nonempty_challenges pinK
    { replica_nodes := [], replica_parents := [], nodes := [] } ppK).mpr (Or.inl rfl)

/-- C3: `generate_public_inputs` aborts with a fatal precondition error
(modelled: returns `none`) if and only if the supplied public inputs carry
a root commitment (a non-`None` tau); when the commitment is absent it
never aborts for this reason. -/
theorem generate_public_inputs_aborts_iff_tau_present :
    ∀ (pin : DrgPublicInputs) (pp : DrgPublicParams),
      generate_public_inputs pin pp = none ↔ pin.tau.isSome := by
  intro pin pp
  unfold generate_public_inputs
  cases h : pin.tau.isSome <;> simp [h]

/-- Witness for C3: a commitment-carrying input aborts. -/
theorem generate_public_inputs_aborts_iff_tau_present_witness :
    generate_public_inputs { replica_id := 0, challenges := [], tau := some (0, 0) } ppK
      = none :=
  (generate_public_inputs_aborts_iff_tau_present
    { replica_id := 0, challenges := [], tau := some (0, 0) } ppK).mpr rfl

/-- C6: for every challenge in index order, `generate_public_inputs`
appends, in this exact order: (a) the packed ReplicaIdentity contribution
(once per challenge), (b) the Merkle-membership contribution of the
challenged node itself and then of each of its degree parents in
topology-defined order, and (c) the data node's contribution; the overall
output is the concatenation of these per-challenge blocks. -/
theorem generate_public_inputs_block_structure :
    ∀ (pin : DrgPublicInputs) (pp : DrgPublicParams), pin.tau = none →
      generate_public_inputs pin pp = some (specPublicInputs pin pp) := by
  intro pin pp htau
  unfold generate_public_inputs
  rw [htau]
  simp only [Option.isSome_none, Bool.false_eq_true, if_false]
  unfold specPublicInputs
  refine congrArg some (congrArg List.flatten (List.map_congr_left ?_))
  intro c _
  unfold specChallengeBlock
  simp [List.append_assoc]

/-- Witness for C6 at the concrete single-challenge instance. -/
theorem generate_public_inputs_block_structure_witness :
    generate_public_inputs pinK ppK = some (specPublicInputs pinK ppK) :=
  generate_public_inputs_block_structure pinK ppK rfl

/-- C2 (amended): a path-length mismatch between a challenge's replica and
data Merkle paths is detected by the eager `assert_eq!` precondition check
and aborts synthesis — the error return means no constraint of the
affected challenge is emitted.  (Parent path lengths are not checked; see
the counterexample.) -/
theorem path_length_mismatch_check_replica_data :
    ∀ (so : Bool) (nb : Nat) (w : PrivateDrgPoRepCircuit)
      (ridBits : List (Option Bool)) (i : Nat) (cs : CS)
      (rp : List (Option (Fr × Bool))) (pthss : List (List (Option (Fr × Bool))))
      (dp : List (Option (Fr × Bool))) (rn : Option Fr) (rps : List (Option Fr))
      (dn : Option Fr),
      w.replica_nodes_paths.get? i = some rp →
      w.replica_parents_paths.get? i = some pthss →
      w.data_nodes_paths.get? i = some dp →
      w.replica_nodes.get? i = some rn →
      w.replica_parents.get? i = some rps →
      w.data_nodes.get? i = some dn →
      dp.length ≠ rp.length →
      synthChallenge so nb w ridBits i cs = Except.error SynthesisError.assertionFailed := by
  intro so nb w ridBits i cs rp pthss dp rn rps dn h1 h2 h3 h4 h5 h6 hne
  unfold synthChallenge
  rw [h1, h2, h3, h4, h5, h6]
  dsimp only
  rw [if_neg hne]

/-- Witness for the amended C2: a replica/data mismatch aborts with the
assertion error. -/
theorem path_length_mismatch_check_replica_data_witness :
    synthChallenge false 255 wC2m [] 0 { inputs := [], numAux := 0, constraints := [] }
      = Except.error SynthesisError.assertionFailed :=
  path_length_mismatch_check_replica_data false 255 wC2m [] 0
    { inputs := [], numAux := 0, constraints := [] }
    _ _ _ _ _ _ rfl rfl rfl rfl rfl rfl (by decide)

/-- Counterexample to C2 as stated: `wC2` has a parent path of length 0
while its replica and data paths have length 1 — a structural mismatch
among the challenge's replica, parent and data witnesses — yet concrete
synthesis succeeds; no precondition check detects it. -/
theorem parent_path_mismatch_not_detected :
    wC2.replica_nodes_paths = [[some (0, false)]] ∧
    wC2.data_nodes_paths = [[some (0, false)]] ∧
    wC2.replica_parents_paths = [[[]]] ∧
    exceptIsOk (synthesize false 255 wC2) = true := by
  refine ⟨rfl, rfl, rfl, ?_⟩
  decide

/-- C4: in concrete synthesis, reading an Unknown witness value fails with
`AssignmentMissing`, fatal to the call (shown at the replica-id site, and
by the fact that a successful concrete run can have consumed no Unknown
replica-id or data-node value); in structure-only synthesis the Unknown
witness of the same shape flows through and synthesis succeeds with the
same constraint topology as the Known run. -/
theorem unknown_values_fatal_concrete_structure_only :
    ∀ (nb : Nat) (w : PrivateDrgPoRepCircuit),
      (w.replica_id = none →
        synthesize false nb w = Except.error SynthesisError.assignmentMissing) ∧
      (∀ cs, synthesize false nb w = Except.ok cs →
        w.replica_id.isSome ∧
        (∀ i x, w.data_nodes.get? i = some x → x.isSome) ∧
        ∃ cs', synthesize true nb (unknownify w) = Except.ok cs' ∧
          cs'.constraints = cs.constraints ∧ cs'.numAux = cs.numAux ∧
          cs'.inputs.length = cs.inputs.length) := by
  intro nb w
  refine ⟨synthesize_concrete_needs_replica_id, ?_⟩
  intro cs h
  obtain ⟨Δc, Δi, _, hrid, _, _, _, _, _, hkn⟩ := synthesize_ok h
  refine ⟨hrid rfl, ?_, synthesize_sim h⟩
  intro i x hget
  have hilen : i < w.data_nodes.length := by
    cases hlt : Nat.decLt i w.data_nodes.length with
    | isTrue hp => exact hp
    | isFalse hp =>
      rw [List.get?_eq_none.mpr (Nat.le_of_not_lt hp)] at hget
      exact absurd hget (by simp)
  obtain ⟨y, hy⟩ := hkn rfl i (List.mem_range.mpr hilen)
  rw [hy] at hget
  cases hget
  rfl

/-- Witness for C4: the concrete fixture `wU` (unknown replica id) aborts
with `AssignmentMissing`, and the known fixture `wKc` admits a
structure-only run with the same topology. -/
theorem unknown_values_fatal_concrete_structure_only_witness :
    synthesize false 255 wU = Except.error SynthesisError.assignmentMissing ∧
    (wKc.replica_id.isSome ∧
      (∀ i x, wKc.data_nodes.get? i = some x → x.isSome) ∧
      ∃ cs', synthesize true 255 (unknownify wKc) = Except.ok cs' ∧
        cs'.constraints = csK.constraints ∧ cs'.numAux = csK.numAux ∧
        cs'.inputs.length = csK.inputs.length) :=
  ⟨(unknown_values_fatal_concrete_structure_only 255 wU).1 rfl,
   (unknown_values_fatal_concrete_structure_only 255 wKc).2 csK rfl⟩

/-- C5: in every successful synthesis run the ReplicaIdentity is
bit-decomposed into exactly `lambda` allocated bits (the arity of the
`boolean_vec` block) and the `Fr::CAPACITY`-bit prefix is packed into the
public inputs exactly once per proof — the packing block appears exactly
once in the whole trace, directly after the bit decomposition and before
every per-challenge block — and, for a Known run, the packed field element
is the deterministic, order-preserving little-endian packing of the
prefix. -/
theorem replica_id_packed_once_before_loop :
    ∀ (so : Bool) (nb : Nat) (w : PrivateDrgPoRepCircuit) (cs : CS),
      synthesize so nb w = Except.ok cs →
      frCapacity ≤ w.lambda ∧
      cs.constraints.take 2 = [Constraint.block "boolean_vec" [w.lambda],
        Constraint.block "pack_into_inputs" [1]] ∧
      cs.constraints.countP Constraint.isPack = 1 ∧
      (so = false → ∀ rid, w.replica_id = some rid →
        cs.inputs.take 1 = [some (packBitsLE (frBits rid frCapacity))]) := by
  intro so nb w cs h
  obtain ⟨Δc, Δi, hcap, _, hcons, hin, hblocks, _, _, _⟩ := synthesize_ok h
  refine ⟨hcap, ?_, ?_, ?_⟩
  · rw [hcons]
    rfl
  · rw [hcons, List.countP_append]
    have h0 : Δc.countP Constraint.isPack = 0 :=
      List.countP_eq_zero.mpr (by intro c hc; simp [(hblocks c hc).1])
    rw [h0]
    rfl
  · intro hso rid hrid
    subst hso
    rw [hin]
    have hfb : fieldBitsVal false w.lambda w.replica_id = (frBits rid w.lambda).map some := by
      rw [hrid]; rfl
    rw [hfb, ← List.map_take, frBits_take rid hcap, multipackOption_map_some]
    have hsingle : computeMultipacking (frBits rid frCapacity) =
        [packBitsLE (frBits rid frCapacity)] := by
      unfold computeMultipacking
      rw [chunksOf_of_length_le]
      · rfl
      · intro hnil
        have := frBits_length rid frCapacity
        rw [hnil] at this
        simp [frCapacity] at this
      · rw [frBits_length]
    rw [hsingle]
    rfl

/-- Witness for C5 at the concrete known run. -/
theorem replica_id_packed_once_before_loop_witness :
    frCapacity ≤ wKc.lambda ∧
    csK.constraints.take 2 = [Constraint.block "boolean_vec" [wKc.lambda],
      Constraint.block "pack_into_inputs" [1]] ∧
    csK.constraints.countP Constraint.isPack = 1 ∧
    (false = false → ∀ rid, wKc.replica_id = some rid →
      csK.inputs.take 1 = [some (packBitsLE (frBits rid frCapacity))]) :=
  replica_id_packed_once_before_loop false 255 wKc csK rfl

/-- C7: for every challenge and parent value, the parents-to-bits stage of
synthesis decomposes the parent little-endian into the field's native
`nb` bits and right-pads with constant-false bits up to the fixed width
256, so for every field with native bit length at most 256 each parent
bit-vector handed to the key-derivation sub-circuit has width exactly
256. -/
theorem parent_bits_padded_to_fixed_width :
    ∀ (so : Bool) (nb : Nat) (vals : List (Option Fr)) (cs : CS)
      (bl : List (List (Option Bool))) (cs' : CS),
      nb ≤ 256 →
      parentsToBits so nb vals cs = Except.ok (bl, cs') →
      List.Forall₂ (fun (bits : List (Option Bool)) (v : Option Fr) =>
        bits.length = 256 ∧
        bits.drop nb = List.replicate (256 - nb) (some false) ∧
        (so = false → ∀ x, v = some x → bits.take nb = (frBits x nb).map some)) bl vals := by
  intro so nb vals cs bl cs' hnb h
  obtain ⟨hbl, _, _, _, hkn⟩ := parentsToBits_ok h
  subst hbl
  rw [List.forall₂_map_left_iff]
  rw [List.forall₂_same]
  intro v hv
  have hfl : (fieldBitsVal so nb v).length = nb := by
    cases so with
    | true => simp [fieldBitsVal]
    | false =>
      obtain ⟨x, hx⟩ := Option.isSome_iff_exists.mp (hkn rfl v hv)
      rw [hx]
      simp [fieldBitsVal, frBits_length]
  refine ⟨?_, ?_, ?_⟩
  · simp [hfl]
    omega
  · have hd := List.drop_left (fieldBitsVal so nb v)
      (List.replicate (256 - nb) (some false : Option Bool))
    rw [hfl] at hd
    rw [hd]
  · intro hso x hx
    subst hso
    subst hx
    have ht := List.take_left (fieldBitsVal false nb (some x))
      (List.replicate (256 - nb) (some false : Option Bool))
    rw [hfl] at ht
    rw [ht]
    rfl

/-- Witness for C7 at one concrete known parent. -/
theorem parent_bits_padded_to_fixed_width_witness :
    List.Forall₂ (fun (bits : List (Option Bool)) (v : Option Fr) =>
      bits.length = 256 ∧
      bits.drop 255 = List.replicate (256 - 255) (some false) ∧
      (false = false → ∀ x, v = some x → bits.take 255 = (frBits x 255).map some))
      pb7.1 [some 0] :=
  parent_bits_padded_to_fixed_width false 255 [some 0]
    { inputs := [], numAux := 0, constraints := [] } pb7.1 pb7.2 (by decide) rfl

/-- C8: for every challenge, the synthesizer enforces the equality of the
decoded candidate plaintext and the allocated data-node value by emitting
exactly one multiplicative rank-1 constraint `expected * 1 = decoded`
(the allocated-expected variable times one equals the decode output), and
no other explicit constraint: per challenge iteration the trace gains
exactly one `enforce` entry, of exactly this shape, as its final entry,
and over a whole run the number of `enforce` entries equals the number of
challenges. -/
theorem one_equality_constraint_per_challenge :
    (∀ (so : Bool) (nb : Nat) (w : PrivateDrgPoRepCircuit)
        (ridBits : List (Option Bool)) (i : Nat) (cs cs' : CS),
      synthChallenge so nb w ridBits i cs = Except.ok cs' →
      ∃ Δ, cs'.constraints = cs.constraints ++ Δ ∧
        ∃ d, Δ.filter Constraint.isEnforce =
            [Constraint.enforce [(Var.aux (d + 1), 1)] [(Var.one, 1)] [(Var.aux d, 1)]] ∧
          Δ.getLast? = some (Constraint.enforce [(Var.aux (d + 1), 1)] [(Var.one, 1)]
            [(Var.aux d, 1)])) ∧
    (∀ (so : Bool) (nb : Nat) (w : PrivateDrgPoRepCircuit) (cs : CS),
      synthesize so nb w = Except.ok cs →
      cs.constraints.countP Constraint.isEnforce = w.data_nodes.length) := by
  constructor
  · intro so nb w ridBits i cs cs' h
    obtain ⟨rp, pthss, dp, rn, rps, dn, _, _, _, _, _, _, _, _, hr, _⟩ := synthChallenge_ok h
    refine ⟨[Constraint.block "por" [rp.length]]
          ++ parentsPorCons pthss rps.length
          ++ [Constraint.block "por" [dp.length]]
          ++ List.replicate rps.length (Constraint.block "field_bits" [nb])
          ++ [Constraint.block "kdf" [w.degree, ridBits.length, rps.length]]
          ++ [Constraint.block "sloth" [w.sloth_iter]]
          ++ [Constraint.enforce
                [(Var.aux (cs.numAux + (2 + 2 * rp.length) + parentsPorAux pthss rps.length
                    + (2 + 2 * dp.length) + rps.length * nb + 2), 1)]
                [(Var.one, 1)]
                [(Var.aux (cs.numAux + (2 + 2 * rp.length) + parentsPorAux pthss rps.length
                    + (2 + 2 * dp.length) + rps.length * nb + 1), 1)]], ?_,
        cs.numAux + (2 + 2 * rp.length) + parentsPorAux pthss rps.length
          + (2 + 2 * dp.length) + rps.length * nb + 1, ?_, ?_⟩
    · rw [hr]
      dsimp only
      simp [List.append_assoc]
    · have hf1 : (parentsPorCons pthss rps.length).filter Constraint.isEnforce = [] := by
        rw [List.filter_eq_nil_iff]
        intro c hc
        simp only [parentsPorCons, List.mem_map] at hc
        obtain ⟨p, _, hp⟩ := hc
        subst hp
        simp [Constraint.isEnforce]
      have hf2 : (List.replicate rps.length
          (Constraint.block "field_bits" [nb])).filter Constraint.isEnforce = [] := by
        rw [List.filter_eq_nil_iff]
        intro c hc
        rw [List.eq_of_mem_replicate hc]
        simp [Constraint.isEnforce]
      rw [List.filter_append, List.filter_append, List.filter_append, List.filter_append,
        List.filter_append, List.filter_append, hf1, hf2]
      rfl
    · rw [List.getLast?_concat]
  · intro so nb w cs h
    obtain ⟨Δc, Δi, _, _, hcons, _, _, hcount, _, _⟩ := synthesize_ok h
    rw [hcons, List.countP_append, hcount]
    simp
    exact ⟨rfl, rfl⟩

/-- The public inputs a private PoR invocation exposes for a fully known
path are the packed direction bits of that path. -/
theorem multipack_porDirs_known (path : List (Fr × Bool)) :
    multipackOption (porDirs false (path.map some)) =
      (computeMultipacking (path.map Prod.snd)).map some := by
  have hd : porDirs false (path.map some) = (path.map Prod.snd).map some := by
    unfold porDirs
    rw [List.map_map, List.map_map]
    rfl
  rw [hd, multipackOption_map_some]

/-- For matching parent witnesses (each parent path's direction bits encode
that parent's index), the parent PoR public inputs coincide with the
generator's per-parent contributions. -/
theorem parents_inputs_match {H : Nat} :
    ∀ {ps : List (Nat × DataProof)} {parents : List Nat},
      List.Forall₂ (fun (p : Nat × DataProof) (idx : Nat) =>
        p.2.proof.path.map Prod.snd = frBits idx H) ps parents →
      ((ps.map (fun p => p.2.proof.as_options)).map
        (fun pth => multipackOption (porDirs false pth))).flatten =
      ((parents.map (fun node => computeMultipacking (frBits node H))).flatten).map some := by
  intro ps parents hf
  induction hf with
  | nil => rfl
  | cons hpd htail ih =>
    rename_i p idx ps' parents'
    simp only [List.map_cons, List.flatten_cons, List.map_append]
    rw [ih]
    have hhead : multipackOption (porDirs false p.2.proof.as_options) =
        (computeMultipacking (frBits idx H)).map some := by
      unfold MerkleProof.as_options
      rw [multipack_porDirs_known, hpd]
    rw [hhead]

/-- Witness for C8 at one concrete challenge iteration and the concrete
whole run. -/
theorem one_equality_constraint_per_challenge_witness :
    (∃ Δ, csCh8.constraints = ({ inputs := [], numAux := 0, constraints := [] } : CS).constraints
        ++ Δ ∧
      ∃ d, Δ.filter Constraint.isEnforce =
          [Constraint.enforce [(Var.aux (d + 1), 1)] [(Var.one, 1)] [(Var.aux d, 1)]] ∧
        Δ.getLast? = some (Constraint.enforce [(Var.aux (d + 1), 1)] [(Var.one, 1)]
          [(Var.aux d, 1)])) ∧
    csK.constraints.countP Constraint.isEnforce = wKc.data_nodes.length :=
  ⟨(one_equality_constraint_per_challenge.1 false 255 wKc
      (List.replicate 254 (none : Option Bool)) 0
      { inputs := [], numAux := 0, constraints := [] } csCh8 rfl),
   one_equality_constraint_per_challenge.2 false 255 wKc csK rfl⟩

/-- C1 (amended): for a challenge count of exactly one, the sequence of
field elements returned by `generate_public_inputs` is identical, in both
length and positional content, to the public-input vector the synthesizer
exposes when synthesized against the witness produced by `circuit` from
the matching vanilla proof (one whose path direction bits encode the
challenged and parent indices).  (For challenge count at least two the
identity fails; see the counterexample.) -/
theorem generate_public_inputs_matches_synthesizer_single_challenge :
    ∀ (pin : DrgPublicInputs) (pp : DrgPublicParams) (proof : DrgProof) (nb : Nat)
      (c : Nat) (rn dn : DataProof) (ps : List (Nat × DataProof))
      (w : PrivateDrgPoRepCircuit) (l : List Fr) (cs : CS),
      pin.challenges = [c] →
      pin.tau = none →
      proof.replica_nodes = [rn] →
      proof.nodes = [dn] →
      proof.replica_parents = [ps] →
      frCapacity ≤ pp.lambda →
      rn.proof.path.map Prod.snd = frBits c (treeHeight pp.graphSize) →
      dn.proof.path.map Prod.snd = frBits c (treeHeight pp.graphSize) →
      List.Forall₂ (fun (p : Nat × DataProof) (idx : Nat) =>
        p.2.proof.path.map Prod.snd = frBits idx (treeHeight pp.graphSize))
        ps (pp.graphParents c) →
      circuit pin proof pp = some w →
      generate_public_inputs pin pp = some l →
      synthesize false nb w = Except.ok cs →
      cs.inputs = l.map some := by
  intro pin pp proof nb c rn dn ps w l cs hch htau hrn hdn hps hcap hrnd hdnd hfor
    hcirc hgen hsyn
  have hplen : ps.length = (pp.graphParents c).length := hfor.length_eq
  -- Extract the explicit witness built by the adapter.
  unfold circuit at hcirc
  rw [hrn, hdn, hps] at hcirc
  dsimp only [List.head?] at hcirc
  rw [Option.some_inj] at hcirc
  subst hcirc
  -- Extract the generator output.
  unfold generate_public_inputs at hgen
  rw [htau, hch] at hgen
  dsimp only [Option.isSome_none] at hgen
  rw [if_neg (by simp)] at hgen
  simp only [List.map_cons, List.map_nil, List.flatten_cons, List.flatten_nil,
    List.append_nil, Option.some_inj] at hgen
  subst hgen
  -- Evaluate the synthesizer run.
  unfold synthesize at hsyn
  dsimp only at hsyn
  rw [show bytes_into_boolean_vec false (some pin.replica_id) pp.lambda
      { inputs := [], numAux := 0, constraints := [] } =
      Except.ok ((frBits pin.replica_id pp.lambda).map some,
        { inputs := [], numAux := 0 + pp.lambda,
          constraints := [] ++ [Constraint.block "boolean_vec" [pp.lambda]] })
    from by simp [bytes_into_boolean_vec]] at hsyn
  dsimp only at hsyn
  rw [if_pos (by simpa [frBits_length] using hcap)] at hsyn
  simp only [List.length_cons, List.length_nil, List.length_map] at hsyn
  rw [show List.range 1 = [0] from rfl] at hsyn
  unfold synthLoop at hsyn
  split at hsyn
  · exact absurd hsyn (by simp)
  rename_i cs1 hch1
  unfold synthLoop at hsyn
  rw [Except.ok.injEq] at hsyn
  subst hsyn
  obtain ⟨rp, pthss, dp, rn2, rps, dn2, h1, h2, h3, _, h5, _, _, _, hr, _⟩ :=
    synthChallenge_ok hch1
  have erp : rp = rn.proof.path.map some := (Option.some_inj.mp h1).symm
  have epthss : pthss = ps.map (fun p => p.2.proof.as_options) :=
    (Option.some_inj.mp h2).symm
  have edp : dp = dn.proof.path.map some := (Option.some_inj.mp h3).symm
  have erps : rps = ps.map (fun p => some p.2.data) := (Option.some_inj.mp h5).symm
  subst erp; subst epthss; subst edp; subst erps
  rw [hr]
  dsimp only [pack_into_inputs]
  -- Identify the four public-input segments.
  have hid : multipackOption ((((frBits pin.replica_id pp.lambda).map some)).take
      frCapacity) =
      (computeMultipacking ((frBits pin.replica_id 256).take frCapacity)).map some := by
    rw [← List.map_take, frBits_take pin.replica_id hcap,
      frBits_take pin.replica_id (by norm_num [frCapacity]), multipackOption_map_some]
  have hrep : multipackOption (porDirs false (rn.proof.path.map some)) =
      (porGenPublicInputs c pp.graphSize).map some := by
    rw [multipack_porDirs_known, hrnd]
    rfl
  have hdat : multipackOption (porDirs false (dn.proof.path.map some)) =
      (porGenPublicInputs c pp.graphSize).map some := by
    rw [multipack_porDirs_known, hdnd]
    rfl
  have hpar : parentsPorInputs false (ps.map (fun p => p.2.proof.as_options))
      (ps.map (fun p => some p.2.data)).length =
      (((pp.graphParents c).map
        (fun node => porGenPublicInputs node pp.graphSize)).flatten).map some := by
    unfold parentsPorInputs
    rw [List.length_map, List.take_of_length_le (by rw [List.length_map])]
    exact parents_inputs_match hfor
  rw [hid, hrep, hdat, hpar]
  simp only [List.map_cons, List.flatten_cons, List.map_append, List.nil_append,
    List.append_assoc]

/-- Witness for the amended C1 at the concrete single-challenge
instance. -/
theorem generate_public_inputs_matches_synthesizer_single_challenge_witness :
    csK.inputs = lK.map some :=
  generate_public_inputs_matches_synthesizer_single_challenge pinK ppK proofK 255 0
    (dpFix false) (dpFix false) [(0, dpFix false)] wKc lK csK rfl rfl rfl rfl rfl
    (by decide) (by decide) (by decide)
    (List.Forall₂.cons (by decide) List.Forall₂.nil)
    (by decide) rfl rfl

/-- Counterexample to C1 as stated: with two challenges, a matching
vanilla proof (every path direction bit encodes its node index), and the
witness `circuit` builds from it, the generator's vector has eight
entries — it repeats the packed replica id per challenge — while the
synthesizer exposes seven public inputs, packing the replica id once; the
two vectors differ in length and content. -/
theorem generate_public_inputs_mismatch_two_challenges :
    pinX.challenges.length = 2 ∧
    circuit pinX proofX ppX = some wX ∧
    proofX.replica_nodes.map (fun n => n.proof.path.map Prod.snd)
      = pinX.challenges.map (fun c => frBits c (treeHeight ppX.graphSize)) ∧
    proofX.nodes.map (fun n => n.proof.path.map Prod.snd)
      = pinX.challenges.map (fun c => frBits c (treeHeight ppX.graphSize)) ∧
    proofX.replica_parents.map (fun psl => psl.map (fun p => p.2.proof.path.map Prod.snd))
      = pinX.challenges.map (fun c => (ppX.graphParents c).map
          (fun idx => frBits idx (treeHeight ppX.graphSize))) ∧
    generate_public_inputs pinX ppX = some lX ∧
    synthesize false 255 wX = Except.ok csX ∧
    csX.inputs.length ≠ lX.length ∧
    csX.inputs ≠ lX.map some := by
  refine ⟨rfl, by decide, by decide, by decide, by decide, rfl, rfl, by decide, by decide⟩

end DrgPoRep
